import Mathlib

/-!
Verification development for the CURdashboard repository.

The Go sources are shallowly embedded:

* `CostCli` models the cost-attribution CLI (`costcli` main package):
  the tag resolver (`findExact`, `findRegex`, `findTagMatch`), the
  Athena query driver (`sendQuery`: polling loop and paginated result
  decoding), result aggregation (`processResults`), RI fee
  redistribution (`processRIUsage`) and report formatting
  (`printResults`).
* `CurConvert` models the `curconvert` package: manifest column
  canonicalization and de-duplication (`ParseCur`), the type override
  table initialized by `NewCurConvert`, and `SetFileConcurrency`.

Modelling conventions: Go `float64` values are embedded as `ℚ` (the
claims under study concern exact accounting identities, stated in the
spec "up to float rounding"); `strconv.ParseFloat` is an abstract
parameter `parse : String → Option ℚ`; a compiled Go regular
expression is an abstract `Pattern` carrying a `compiles` flag
(`regexp.Compile` may fail) and a match predicate; a Go
`map[string]string` row is an association list read through `rowGet`
(absent key yields `""`, as Go map indexing does).
-/

namespace CostCli

/-- An abstract regular expression, standing for one entry of a Go
`[]string` of regex sources: `compiles` is whether `regexp.Compile`
succeeds, `matches` is `MatchString` of the compiled pattern. -/
structure Pattern where
  compiles : Bool
  isMatch : String → Bool

/-- Go struct `Map` (one tag-mapping rule): `Value`, `Match`, `Regex`. -/
structure Rule where
  Value : String
  Match : List String
  Regex : List Pattern

/-- Go struct `TagMap` (one tag axis). -/
structure TagAxis where
  Tags : List String
  RMap : List Rule
  Name : String

/-- Go `map[string][]string` blacklist, keyed by raw column name. -/
abbrev Blacklist := List (String × List Pattern)

/-- `findExact` from the source: true iff some element of `list`
equals `value`. -/
def findExact (value : String) (list : List String) : Bool :=
  list.any (fun v => v == value)

/-- `findRegex` from the source: a pattern that fails to compile is
skipped; otherwise return true on the first pattern matching
`value`. -/
def findRegex (value : String) (list : List Pattern) : Bool :=
  list.any (fun p => p.compiles && p.isMatch value)

/-- `findTagMatch` from the source: exact pass over the rules, then
regex pass, then the blacklist check, then non-empty passthrough.
`none` models the `"No Match"` error return. -/
def findTagMatch (v : String) (m : List Rule) (tag : String)
    (blacklist : Blacklist) : Option String :=
  match m.find? (fun o => findExact v o.Match) with
  | some o => some o.Value
  | none =>
    match m.find? (fun o => findRegex v o.Regex) with
    | some o => some o.Value
    | none =>
      let bl :=
        match List.lookup tag blacklist with
        | some l => findRegex v l
        | none => false
      if bl then none
      else if v.length > 0 then some v
      else none

/-- The blacklist test inside `findTagMatch`, exposed for the
statement of the resolver theorem. -/
def blacklistHit (v tag : String) (blacklist : Blacklist) : Bool :=
  match List.lookup tag blacklist with
  | some l => findRegex v l
  | none => false

theorem length_pos_iff_ne_empty (s : String) : 0 < s.length ↔ s ≠ "" := by
  have h1 : s.length = s.data.length := rfl
  rw [h1, List.length_pos]
  constructor
  · intro h he
    exact h (by rw [he])
  · intro h hd
    exact h (String.ext (by rw [hd]))

/-- **C1.** The tag resolver returns the value of the first rule whose
match list contains the cell exactly; failing that, the value of the
first rule with a matching regex (so an exact match in any rule
preempts a regex match in any rule, and within each pass earlier rules
win, `List.find?` returning the first hit); if neither pass matches
and the cell hits a blacklist pattern for the candidate column the
result is `NO_MATCH` (`none`) even for a non-empty cell; otherwise a
non-empty cell passes through unchanged and an empty cell yields
`NO_MATCH`. -/
theorem findTagMatch_resolution (v tag : String) (m : List Rule) (bl : Blacklist) :
    (∀ r, m.find? (fun o => findExact v o.Match) = some r →
      findTagMatch v m tag bl = some r.Value)
    ∧ ((∀ r ∈ m, findExact v r.Match = false) →
        ∀ r, m.find? (fun o => findRegex v o.Regex) = some r →
          findTagMatch v m tag bl = some r.Value)
    ∧ ((∀ r ∈ m, findExact v r.Match = false ∧ findRegex v r.Regex = false) →
        blacklistHit v tag bl = true →
        findTagMatch v m tag bl = none)
    ∧ ((∀ r ∈ m, findExact v r.Match = false ∧ findRegex v r.Regex = false) →
        blacklistHit v tag bl = false →
        (v ≠ "" → findTagMatch v m tag bl = some v)
        ∧ (v = "" → findTagMatch v m tag bl = none)) := by
  have hnone : ∀ (p : Rule → Bool), (∀ r ∈ m, p r = false) → m.find? p = none := by
    intro p hp
    apply List.find?_eq_none.mpr
    intro x hx
    simp [hp x hx]
  refine ⟨?_, ?_, ?_, ?_⟩
  · intro r hr
    simp [findTagMatch, hr]
  · intro hex r hr
    simp [findTagMatch, hnone _ hex, hr]
  · intro hboth hbl
    have hex : m.find? (fun o => findExact v o.Match) = none :=
      hnone _ (fun r hr => (hboth r hr).1)
    have hre : m.find? (fun o => findRegex v o.Regex) = none :=
      hnone _ (fun r hr => (hboth r hr).2)
    simp only [findTagMatch, hex, hre]
    simp only [blacklistHit] at hbl
    simp [hbl]
  · intro hboth hbl
    have hex : m.find? (fun o => findExact v o.Match) = none :=
      hnone _ (fun r hr => (hboth r hr).1)
    have hre : m.find? (fun o => findRegex v o.Regex) = none :=
      hnone _ (fun r hr => (hboth r hr).2)
    simp only [findTagMatch, hex, hre]
    simp only [blacklistHit] at hbl
    constructor
    · intro hv
      have : 0 < v.length := (length_pos_iff_ne_empty v).mpr hv
      simp [hbl, this]
    · intro hv
      subst hv
      simp [hbl, String.length]

/-- Concrete input exercising `findTagMatch_resolution`: a non-empty
cell that no rule matches but that hits the blacklist resolves to
`NO_MATCH`. -/
theorem findTagMatch_resolution_witness :
    findTagMatch "i-abc" [⟨"Z", ["zzz"], [⟨true, fun s => s == "zzz"⟩]⟩]
      "resourceid" [("resourceid", [⟨true, fun s => s == "i-abc"⟩])] = none :=
  (findTagMatch_resolution "i-abc" "resourceid"
      [⟨"Z", ["zzz"], [⟨true, fun s => s == "zzz"⟩]⟩]
      [("resourceid", [⟨true, fun s => s == "i-abc"⟩])]).2.2.1
    (by decide) (by decide)

/-- One Athena result row, a Go `map[string]string` as an association
list. -/
abbrev Row := List (String × String)

/-- Go map indexing `row[k]`: the value stored under `k`, or `""` when
the key is absent. -/
def rowGet (r : Row) (k : String) : String :=
  (((r.find? (fun p => p.1 == k)).map Prod.snd)).getD ""

/-- Go map assignment `row[k] = v`. -/
def rowSet (r : Row) (k v : String) : Row :=
  (k, v) :: r.filter (fun p => !(p.1 == k))

/-- Go struct `Config` (the fields the attribution core reads). -/
structure Config where
  TagMap : List TagAxis
  TagBlacklist : Blacklist

/-- The inner loop of `processResults` for one tag axis: try the
candidate columns in declared order, accept the first cell that
resolves, else contribute `"Untagged"`. -/
def resolveAxis (row : Row) (tm : TagAxis) (bl : Blacklist) : String :=
  match tm.Tags.findSome? (fun t => findTagMatch (rowGet row t) tm.RMap t bl) with
  | some v => v
  | none => "Untagged"

/-- The composite key `strings.Join(tags, ",")` built by
`processResults`: the service, then one label per axis. -/
def compositeKey (row : Row) (c : Config) : String :=
  String.intercalate ","
    (rowGet row "service" :: c.TagMap.map (fun tm => resolveAxis row tm c.TagBlacklist))

/-- Accumulation into the Go map `r.tagCosts[key] += f`. -/
def upsert (l : List (String × ℚ)) (k : String) (v : ℚ) : List (String × ℚ) :=
  match l with
  | [] => [(k, v)]
  | (k', v') :: rest => if k' = k then (k', v' + v) :: rest else (k', v') :: upsert rest k v

/-- Go struct `Results`. -/
structure Results where
  tagCosts : List (String × ℚ)
  total : ℚ

/-- `processResults` from the source: parse each row's `cost` (parse
failure skips the row), build the composite key, and accumulate into
`tagCosts` and `total`.  `parse` abstracts `strconv.ParseFloat`. -/
def processResults (parse : String → Option ℚ) (rows : List Row) (c : Config) : Results :=
  rows.foldl
    (fun r row =>
      match parse (rowGet row "cost") with
      | none => r
      | some f => { tagCosts := upsert r.tagCosts (compositeKey row c) f,
                    total := r.total + f })
    { tagCosts := [], total := 0 }

theorem findSome?_of_first {α β : Type} (f : α → Option β) :
    ∀ (l : List α) (i : Nat) (hi : i < l.length) (v : β),
      f (l.get ⟨i, hi⟩) = some v →
      (∀ j (hj : j < i), f (l.get ⟨j, Nat.lt_trans hj hi⟩) = none) →
      l.findSome? f = some v := by
  intro l
  induction l with
  | nil => intro i hi; cases hi
  | cons a t ih =>
    intro i hi v hv hnone
    cases i with
    | zero =>
      simp only [List.get] at hv
      simp [List.findSome?, hv]
    | succ n =>
      have h0 : f a = none := hnone 0 (Nat.succ_pos n)
      simp only [List.findSome?, h0]
      exact ih n (Nat.lt_of_succ_lt_succ hi) v hv
        (fun j hj => hnone (j + 1) (Nat.succ_lt_succ hj))

/-- **C8.** For every result row and tag axis, `processResults` tries
the axis's candidate columns (`Tags`) in declared order and accepts
the first candidate whose cell resolves to something other than
`NO_MATCH`; when every candidate returns `NO_MATCH` the axis
contributes the literal label `"Untagged"` (this is the per-axis label
that `compositeKey` joins into the composite group key). -/
theorem processResults_axis_resolution (row : Row) (tm : TagAxis) (bl : Blacklist) :
    (∀ i (hi : i < tm.Tags.length) (v : String),
      findTagMatch (rowGet row (tm.Tags.get ⟨i, hi⟩)) tm.RMap (tm.Tags.get ⟨i, hi⟩) bl
          = some v →
      (∀ j (hj : j < i),
        findTagMatch (rowGet row (tm.Tags.get ⟨j, Nat.lt_trans hj hi⟩)) tm.RMap
            (tm.Tags.get ⟨j, Nat.lt_trans hj hi⟩) bl = none) →
      resolveAxis row tm bl = v)
    ∧ ((∀ t ∈ tm.Tags, findTagMatch (rowGet row t) tm.RMap t bl = none) →
        resolveAxis row tm bl = "Untagged") := by
  constructor
  · intro i hi v hv hnone
    have := findSome?_of_first
      (fun t => findTagMatch (rowGet row t) tm.RMap t bl) tm.Tags i hi v hv hnone
    simp [resolveAxis, this]
  · intro hall
    have : tm.Tags.findSome? (fun t => findTagMatch (rowGet row t) tm.RMap t bl) = none := by
      apply List.findSome?_eq_none_iff.mpr
      intro x hx
      exact hall x hx
    simp [resolveAxis, this]

/-- `processRIUsage`: the per-row usage amount, preferring a positive
parsed `normalized_amount`, else a positive parsed `amount`, else no
usage. -/
def riAmountUsage (parse : String → Option ℚ) (row : Row) : Option ℚ :=
  match parse (rowGet row "amount") with
  | some g => if 0 < g then some g else none
  | none => none

/-- The usage amount `processRIUsage` accumulates and later
redistributes for one `riusage` row. -/
def riRowUsage (parse : String → Option ℚ) (row : Row) : Option ℚ :=
  match parse (rowGet row "normalized_amount") with
  | some f => if 0 < f then some f else riAmountUsage parse row
  | none => riAmountUsage parse row

/-- `processRIUsage`: total RI usage per service
(`riUsagePerService[service] += f`). -/
def riUsagePerService (parse : String → Option ℚ) (rows : List Row) (s : String) : ℚ :=
  ((rows.filter (fun r => rowGet r "service" == s)).map
    (fun r => (riRowUsage parse r).getD 0)).sum

/-- `processRIUsage`: total RI fee per service from the `ricost` query
(`riCostPerService[service] = f`, later rows overwriting earlier, rows
whose cost fails to parse skipped; a service never assigned reads as
the Go map zero value). -/
def riCostPerService (parse : String → Option ℚ) (rows : List Row) (s : String) : ℚ :=
  rows.foldl
    (fun acc r =>
      if rowGet r "service" == s then
        match parse (rowGet r "cost") with
        | some f => f
        | none => acc
      else acc) 0

/-- The synthetic cost `processRIUsage` assigns to one `riusage` row:
its usage share of the per-service usage total, times the service's RI
fee (`cost := (f / riUsagePerService[svc]) * riCostPerService[svc]`);
`none` when the row has no positive usage and no cost is assigned. -/
def syntheticCost (parse : String → Option ℚ) (usageTotal fee : ℚ) (row : Row) :
    Option ℚ :=
  (riRowUsage parse row).map (fun u => u / usageTotal * fee)

/-- The decoration `processRIUsage` applies to one `riusage` row
before appending it to the primary result stream: set `row["cost"]` to
the formatted synthetic cost when one is assigned.  `fmt` abstracts
`strconv.FormatFloat(cost, 'E', -1, 64)`. -/
def decorateRIRow (parse : String → Option ℚ) (fmt : ℚ → String)
    (riCostRows riUsageRows : List Row) (r : Row) : Row :=
  match syntheticCost parse
      (riUsagePerService parse riUsageRows (rowGet r "service"))
      (riCostPerService parse riCostRows (rowGet r "service")) r with
  | some cost => rowSet r "cost" (fmt cost)
  | none => r

/-- `processRIUsage` from the source, after its two queries have
returned `riCostRows` and `riUsageRows`: every `riusage` row is
decorated and appended to the primary `tagCost` rows. -/
def processRIUsage (parse : String → Option ℚ) (fmt : ℚ → String)
    (riCostRows riUsageRows tagCostRows : List Row) : List Row :=
  tagCostRows ++ riUsageRows.map (decorateRIRow parse fmt riCostRows riUsageRows)

theorem riRowUsage_pos (parse : String → Option ℚ) (row : Row) (u : ℚ)
    (h : riRowUsage parse row = some u) : 0 < u := by
  unfold riRowUsage riAmountUsage at h
  rcases hp : parse (rowGet row "normalized_amount") with _ | f <;>
      rcases hq : parse (rowGet row "amount") with _ | g <;>
      simp only [hp, hq] at h
  · cases h
  · split at h
    · cases h
      assumption
    · cases h
  · split at h
    · cases h
      assumption
    · cases h
  · split at h
    · cases h
      assumption
    · split at h
      · cases h
        assumption
      · cases h

theorem riUsagePerService_pos (parse : String → Option ℚ) (rows : List Row) (s : String)
    (hex : ∃ r ∈ rows, rowGet r "service" = s ∧ (riRowUsage parse r).isSome) :
    0 < riUsagePerService parse rows s := by
  obtain ⟨r, hr, hs, hsome⟩ := hex
  obtain ⟨u, hu⟩ := Option.isSome_iff_exists.mp hsome
  have hmem : (riRowUsage parse r).getD 0 ∈
      ((rows.filter (fun r => rowGet r "service" == s)).map
        (fun r => (riRowUsage parse r).getD 0)) := by
    apply List.mem_map_of_mem
    apply List.mem_filter.mpr
    exact ⟨hr, by simp [hs]⟩
  have hpos : 0 < (riRowUsage parse r).getD 0 := by
    rw [hu]
    exact riRowUsage_pos parse r u hu
  have hnonneg : ∀ x ∈ ((rows.filter (fun r => rowGet r "service" == s)).map
      (fun r => (riRowUsage parse r).getD 0)), 0 ≤ x := by
    intro x hx
    obtain ⟨r', _, hx'⟩ := List.mem_map.mp hx
    subst hx'
    show (0 : ℚ) ≤ (riRowUsage parse r').getD 0
    rcases hv : riRowUsage parse r' with _ | v
    · simp
    · simp only [Option.getD_some]
      exact le_of_lt (riRowUsage_pos parse r' v hv)
  calc 0 < (riRowUsage parse r).getD 0 := hpos
    _ ≤ _ := List.single_le_sum hnonneg _ hmem

/-- **C2.** RI fee redistribution preserves the per-service total: for
every service `s`, the synthetic costs that `processRIUsage` (via
`decorateRIRow`) assigns to the `riusage` rows of `s` — each row's
positive `normalized_amount`, or else positive `amount`, divided by
the per-service usage total and multiplied by the service's RI fee —
sum exactly (the embedding computes in `ℚ`, so "up to float rounding"
becomes exact equality) to the RI fee the `ricost` query reports for
`s`, provided some row of `s` carries usage. -/
theorem processRIUsage_total_preserved (parse : String → Option ℚ)
    (riCostRows riUsageRows : List Row) (s : String)
    (hex : ∃ r ∈ riUsageRows, rowGet r "service" = s ∧ (riRowUsage parse r).isSome) :
    ((riUsageRows.filter (fun r => rowGet r "service" == s)).map
        (fun r => (syntheticCost parse (riUsagePerService parse riUsageRows s)
            (riCostPerService parse riCostRows s) r).getD 0)).sum
      = riCostPerService parse riCostRows s := by
  set S := riUsagePerService parse riUsageRows s with hS
  set C := riCostPerService parse riCostRows s with hC
  have hSpos : 0 < S := riUsagePerService_pos parse riUsageRows s hex
  have hSne : S ≠ 0 := ne_of_gt hSpos
  have hpt : ∀ r : Row,
      (syntheticCost parse S C r).getD 0 = (riRowUsage parse r).getD 0 * (C / S) := by
    intro r
    rcases hu : riRowUsage parse r with _ | u
    · simp [syntheticCost, hu]
    · simp only [syntheticCost, hu]
      show u / S * C = u * (C / S)
      rw [div_mul_eq_mul_div, mul_div_assoc]
  calc ((riUsageRows.filter (fun r => rowGet r "service" == s)).map
        (fun r => (syntheticCost parse S C r).getD 0)).sum
      = ((riUsageRows.filter (fun r => rowGet r "service" == s)).map
          (fun r => (riRowUsage parse r).getD 0 * (C / S))).sum := by
        congr 1
        apply List.map_congr_left
        intro r _
        exact hpt r
    _ = ((riUsageRows.filter (fun r => rowGet r "service" == s)).map
          (fun r => (riRowUsage parse r).getD 0)).sum * (C / S) := by
        rw [← List.sum_map_mul_right]
    _ = S * (C / S) := by rw [hS]; rfl
    _ = C := by
        rw [mul_comm]
        exact div_mul_cancel₀ C hSne

/-- Concrete input exercising `processRIUsage_total_preserved`: the
spec's RI scenario — one EC2 RI fee of 100, two EC2 usage rows with
normalized amounts 30 and 70; the synthetic costs sum to 100. -/
theorem processRIUsage_total_preserved_witness :
    ((([[("service", "EC2"), ("normalized_amount", "30")],
        [("service", "EC2"), ("normalized_amount", "70")]] : List Row).filter
          (fun r => rowGet r "service" == "EC2")).map
        (fun r => (syntheticCost
            (fun t => if t == "30" then some 30
                      else if t == "70" then some 70
                      else if t == "100" then some 100 else none)
            (riUsagePerService
              (fun t => if t == "30" then some 30
                        else if t == "70" then some 70
                        else if t == "100" then some 100 else none)
              [[("service", "EC2"), ("normalized_amount", "30")],
               [("service", "EC2"), ("normalized_amount", "70")]] "EC2")
            (riCostPerService
              (fun t => if t == "30" then some 30
                        else if t == "70" then some 70
                        else if t == "100" then some 100 else none)
              [[("service", "EC2"), ("cost", "100")]] "EC2") r).getD 0)).sum
      = riCostPerService
          (fun t => if t == "30" then some 30
                    else if t == "70" then some 70
                    else if t == "100" then some 100 else none)
          [[("service", "EC2"), ("cost", "100")]] "EC2" :=
  processRIUsage_total_preserved
    (fun t => if t == "30" then some 30
              else if t == "70" then some 70
              else if t == "100" then some 100 else none)
    [[("service", "EC2"), ("cost", "100")]]
    [[("service", "EC2"), ("normalized_amount", "30")],
     [("service", "EC2"), ("normalized_amount", "70")]] "EC2"
    ⟨[("service", "EC2"), ("normalized_amount", "30")], by decide, by decide, by decide⟩

/-- Concrete input showing the unrestricted per-service preservation
statement fails: a service with an RI fee of 100 but no `riusage`
rows is assigned no synthetic costs, so their sum (0) differs from
the fee. -/
theorem processRIUsage_total_unrestricted_cex :
    ¬ ((([] : List Row).filter (fun r => rowGet r "service" == "EC2")).map
        (fun r => (syntheticCost
            (fun t => if t == "100" then some 100 else none)
            (riUsagePerService
              (fun t => if t == "100" then some 100 else none) [] "EC2")
            (riCostPerService
              (fun t => if t == "100" then some 100 else none)
              [[("service", "EC2"), ("cost", "100")]] "EC2") r).getD 0)).sum
      = riCostPerService (fun t => if t == "100" then some 100 else none)
          [[("service", "EC2"), ("cost", "100")]] "EC2" := by
  intro h
  have h0 : ((([] : List Row).filter (fun r => rowGet r "service" == "EC2")).map
      (fun r => (syntheticCost
          (fun t => if t == "100" then some 100 else none)
          (riUsagePerService
            (fun t => if t == "100" then some 100 else none) [] "EC2")
          (riCostPerService
            (fun t => if t == "100" then some 100 else none)
            [[("service", "EC2"), ("cost", "100")]] "EC2") r).getD 0)).sum
      = (0 : ℚ) := rfl
  have h100 : riCostPerService (fun t => if t == "100" then some 100 else none)
      [[("service", "EC2"), ("cost", "100")]] "EC2" = (100 : ℚ) := rfl
  rw [h0, h100] at h
  norm_num at h

/-- Concrete input exercising `processResults_axis_resolution`: the
first candidate's cell is empty (`NO_MATCH`), so the second
candidate's passthrough value is accepted. -/
theorem processResults_axis_resolution_witness :
    resolveAxis [("t2", "val")] ⟨["t1", "t2"], [], "axis"⟩ [] = "val" :=
  (processResults_axis_resolution [("t2", "val")] ⟨["t1", "t2"], [], "axis"⟩ []).1
    1 (by decide) "val" (by decide)
    (by
      intro j hj
      have hj0 : j = 0 := by omega
      subst hj0
      rfl)

/-- The execution status `sendQuery` polls
(`qrop.QueryExecution.Status`). -/
structure QueryStatus where
  State : String
  StateChangeReason : String

/-- The pause between polls: `duration := time.Duration(2) * time.Second`. -/
def pollPauseSeconds : Nat := 2

/-- The polling loop of `sendQuery` over the trace of
`GetQueryExecution` responses: break on the first status whose state is
not `"RUNNING"` (sleeping `pollPauseSeconds` before each re-poll);
`none` models a trace that never leaves `RUNNING`. -/
def pollQueryExecution : List QueryStatus → Option QueryStatus
  | [] => none
  | q :: rest => if q.State == "RUNNING" then pollQueryExecution rest else some q

/-- The error `sendQuery` builds for a non-`SUCCEEDED` terminal state:
`fmt.Errorf("Error Querying Athena, query state is: %s, detailed error
%s", state, reason)` — it carries both the state and the engine's
`StateChangeReason`. -/
def queryStateError (q : QueryStatus) : String :=
  "Error Querying Athena, query state is: " ++ q.State
    ++ ", detailed error " ++ q.StateChangeReason

/-- One iteration of the inner decode loop of `sendQuery` for a body
row: walk the row's cells, and for each position within the header
width, break with `skip = true` on a nil cell, else store the cell
under its header label. -/
def buildRowAux (colNames : List String) : Nat → List (Option String) → Row → Row × Bool
  | _, [], acc => (acc, false)
  | j, c :: rest, acc =>
    if h : j < colNames.length then
      match c with
      | none => (acc, true)
      | some v => buildRowAux colNames (j + 1) rest (rowSet acc (colNames.get ⟨j, h⟩) v)
    else buildRowAux colNames (j + 1) rest acc

/-- Decoding of one body row by `sendQuery`: the row is kept only when
`len(result) > 0 && !skip`. -/
def decodeRow (colNames : List String) (cells : List (Option String)) : Option Row :=
  let p := buildRowAux colNames 0 cells []
  if p.1 ≠ [] ∧ p.2 = false then some p.1 else none

/-- The paginated result loop of `sendQuery`, over the flattened rows
of all pages: while `len(colNames) < 1` a row is consumed as the
header (a nil header cell would be dereferenced — modelled as `none`);
afterwards each row is decoded and dropped rows are skipped
silently. -/
def collectRows (colNames : List String) :
    List (List (Option String)) → Option (List Row)
  | [] => some []
  | r :: rest =>
    if colNames.length < 1 then
      match r.mapM id with
      | none => none
      | some names => collectRows names rest
    else
      match decodeRow colNames r with
      | some row => (collectRows colNames rest).map (fun rs => row :: rs)
      | none => collectRows colNames rest

/-- `sendQuery` after `StartQueryExecution` succeeded: poll to a
terminal state, fail (with no rows) unless it is `SUCCEEDED`, else
decode the paginated results. -/
def sendQueryModel (polls : List QueryStatus)
    (pages : List (List (Option String))) : Option (Except String (List Row)) :=
  match pollQueryExecution polls with
  | none => none
  | some q =>
    if q.State ≠ "SUCCEEDED" then some (Except.error (queryStateError q))
    else (collectRows [] pages).map Except.ok

theorem pollQueryExecution_first (polls : List QueryStatus) :
    ∀ (n : Nat) (hn : n < polls.length),
      (∀ j (hj : j < n), (polls.get ⟨j, Nat.lt_trans hj hn⟩).State = "RUNNING") →
      (polls.get ⟨n, hn⟩).State ≠ "RUNNING" →
      pollQueryExecution polls = some (polls.get ⟨n, hn⟩) := by
  induction polls with
  | nil => intro n hn; cases hn
  | cons q rest ih =>
    intro n hn hrun hnr
    cases n with
    | zero =>
      have hq : q.State ≠ "RUNNING" := hnr
      unfold pollQueryExecution
      rw [if_neg (by simp [hq])]
      rfl
    | succ m =>
      have h0 : q.State = "RUNNING" := hrun 0 (Nat.succ_pos m)
      unfold pollQueryExecution
      rw [if_pos (by simp [h0])]
      exact ih m (Nat.lt_of_succ_lt_succ hn)
        (fun j hj => hrun (j + 1) (Nat.succ_lt_succ hj)) hnr

/-- **C6.** `sendQuery` polls the execution status every 2 seconds
(`pollPauseSeconds`) until the state is no longer `RUNNING` (the poll
loop returns the first non-`RUNNING` status of the trace), and when
that terminal state is anything other than `SUCCEEDED` it returns an
error — carrying both the terminal state and the engine's
`StateChangeReason` via `queryStateError` — and no rows. -/
theorem sendQuery_poll_and_terminal_error (polls : List QueryStatus)
    (pages : List (List (Option String))) (n : Nat) (hn : n < polls.length)
    (hrun : ∀ j (hj : j < n), (polls.get ⟨j, Nat.lt_trans hj hn⟩).State = "RUNNING")
    (hnr : (polls.get ⟨n, hn⟩).State ≠ "RUNNING") :
    pollPauseSeconds = 2
    ∧ pollQueryExecution polls = some (polls.get ⟨n, hn⟩)
    ∧ ((polls.get ⟨n, hn⟩).State ≠ "SUCCEEDED" →
        sendQueryModel polls pages
          = some (Except.error (queryStateError (polls.get ⟨n, hn⟩)))) := by
  have hpoll := pollQueryExecution_first polls n hn hrun hnr
  refine ⟨rfl, hpoll, ?_⟩
  intro hns
  unfold sendQueryModel
  rw [hpoll]
  simp only [ne_eq, hns, not_false_iff, if_pos]

/-- Concrete input exercising `sendQuery_poll_and_terminal_error`: one
`RUNNING` poll followed by a `FAILED` one yields the error carrying the
state and the state-change reason. -/
theorem sendQuery_poll_and_terminal_error_witness :
    sendQueryModel [⟨"RUNNING", ""⟩, ⟨"FAILED", "boom"⟩] []
      = some (Except.error (queryStateError ⟨"FAILED", "boom"⟩)) :=
  (sendQuery_poll_and_terminal_error [⟨"RUNNING", ""⟩, ⟨"FAILED", "boom"⟩] [] 1
    (by decide)
    (by
      intro j hj
      have hj0 : j = 0 := by omega
      subst hj0
      rfl)
    (by decide)).2.2 (by decide)

theorem rowGet_rowSet_self (r : Row) (k v : String) :
    rowGet (rowSet r k v) k = v := by
  unfold rowGet rowSet
  rw [List.find?_cons_of_pos _ (by simp)]
  rfl

theorem find?_filter_ne (r : Row) (kx k : String) (hne : kx ≠ k) :
    (r.filter (fun p => !(p.1 == kx))).find? (fun p => p.1 == k)
      = r.find? (fun p => p.1 == k) := by
  induction r with
  | nil => rfl
  | cons a t ih =>
    by_cases ha : a.1 = kx
    · rw [List.filter_cons_of_neg (by simp [ha]), ih,
        List.find?_cons_of_neg _ (by simp [ha, hne])]
    · rw [List.filter_cons_of_pos (by simp [ha])]
      by_cases hak : a.1 = k
      · rw [List.find?_cons_of_pos _ (by simp [hak]),
          List.find?_cons_of_pos _ (by simp [hak])]
      · rw [List.find?_cons_of_neg _ (by simp [hak]),
          List.find?_cons_of_neg _ (by simp [hak])]
        exact ih

theorem rowGet_rowSet_ne (r : Row) (kx v k : String) (hne : kx ≠ k) :
    rowGet (rowSet r kx v) k = rowGet r k := by
  unfold rowGet rowSet
  rw [List.find?_cons_of_neg _ (by simp [hne]), find?_filter_ne r kx k hne]

theorem buildRowAux_skip (colNames : List String) :
    ∀ (cells : List (Option String)) (j : Nat) (acc : Row),
      (∃ m, ∃ h1 : m < cells.length,
        j + m < colNames.length ∧ cells.get ⟨m, h1⟩ = none) →
      (buildRowAux colNames j cells acc).2 = true := by
  intro cells
  induction cells with
  | nil =>
    intro j acc h
    obtain ⟨m, h1, _⟩ := h
    cases h1
  | cons c rest ih =>
    intro j acc h
    obtain ⟨m, h1, hlen, hnone⟩ := h
    unfold buildRowAux
    by_cases hj : j < colNames.length
    · rw [dif_pos hj]
      cases m with
      | zero =>
        have hc : c = none := hnone
        subst hc
        rfl
      | succ mm =>
        rcases c with _ | v
        · rfl
        · exact ih (j + 1) (rowSet acc (colNames.get ⟨j, hj⟩) v)
            ⟨mm, Nat.lt_of_succ_lt_succ h1, by omega, hnone⟩
    · rw [dif_neg hj]
      exact absurd hlen (by omega)

theorem buildRowAux_ne (colNames : List String) :
    ∀ (cells : List (Option String)) (j : Nat) (acc : Row),
      (buildRowAux colNames j cells acc).1 = acc
      ∨ (buildRowAux colNames j cells acc).1 ≠ [] := by
  intro cells
  induction cells with
  | nil =>
    intro j acc
    left
    rfl
  | cons c rest ih =>
    intro j acc
    unfold buildRowAux
    by_cases hj : j < colNames.length
    · rw [dif_pos hj]
      rcases c with _ | v
      · left
        rfl
      · rcases ih (j + 1) (rowSet acc (colNames.get ⟨j, hj⟩) v) with h | h
        · right
          rw [h]
          simp [rowSet]
        · right
          exact h
    · rw [dif_neg hj]
      exact ih (j + 1) acc

theorem buildRowAux_props (colNames : List String) (hnd : colNames.Nodup) :
    ∀ (cells : List (Option String)) (j : Nat) (acc : Row),
      (∀ m (h1 : m < cells.length), j + m < colNames.length →
        (cells.get ⟨m, h1⟩).isSome) →
      (buildRowAux colNames j cells acc).2 = false
      ∧ (∀ (m : Nat) (h1 : m < cells.length) (h2 : j + m < colNames.length),
          rowGet (buildRowAux colNames j cells acc).1 (colNames.get ⟨j + m, h2⟩)
            = (cells.get ⟨m, h1⟩).getD "")
      ∧ (∀ k, k ∉ colNames.drop j →
          rowGet (buildRowAux colNames j cells acc).1 k = rowGet acc k) := by
  intro cells
  induction cells with
  | nil =>
    intro j acc _
    refine ⟨rfl, ?_, ?_⟩
    · intro m h1
      cases h1
    · intro k _
      rfl
  | cons c rest ih =>
    intro j acc hsome
    by_cases hj : j < colNames.length
    · have hc : c.isSome := hsome 0 (Nat.succ_pos _) (by omega)
      obtain ⟨v, hv⟩ := Option.isSome_iff_exists.mp hc
      subst hv
      have hstep : buildRowAux colNames j (some v :: rest) acc
          = buildRowAux colNames (j + 1) rest (rowSet acc (colNames.get ⟨j, hj⟩) v) := by
        simp only [buildRowAux]
        rw [dif_pos hj]
      obtain ⟨ihskip, ihget, ihframe⟩ :=
        ih (j + 1) (rowSet acc (colNames.get ⟨j, hj⟩) v)
          (fun m h1 h2 => hsome (m + 1) (Nat.succ_lt_succ h1) (by omega))
      have hdropcons : colNames.drop j
          = colNames.get ⟨j, hj⟩ :: colNames.drop (j + 1) :=
        List.drop_eq_get_cons hj
      have hhead : colNames.get ⟨j, hj⟩ ∉ colNames.drop (j + 1) := by
        have hnodrop : (colNames.drop j).Nodup :=
          hnd.sublist (List.drop_sublist j colNames)
        rw [hdropcons] at hnodrop
        exact (List.nodup_cons.mp hnodrop).1
      refine ⟨?_, ?_, ?_⟩
      · rw [hstep]
        exact ihskip
      · intro m h1 h2
        cases m with
        | zero =>
          show rowGet (buildRowAux colNames j (some v :: rest) acc).1
              (colNames.get ⟨j, hj⟩) = (some v).getD ""
          rw [hstep, ihframe _ hhead]
          exact rowGet_rowSet_self acc _ v
        | succ mm =>
          rw [hstep]
          have e : j + (mm + 1) = j + 1 + mm := by omega
          simp only [e]
          exact ihget mm (Nat.lt_of_succ_lt_succ h1) (by omega)
      · intro k hk
        rw [hdropcons] at hk
        simp only [List.mem_cons, not_or] at hk
        rw [hstep, ihframe k hk.2]
        exact rowGet_rowSet_ne acc _ v k (Ne.symm hk.1)
    · have hstep : buildRowAux colNames j (c :: rest) acc
          = buildRowAux colNames (j + 1) rest acc := by
        simp only [buildRowAux]
        rw [dif_neg hj]
      obtain ⟨ihskip, ihget, ihframe⟩ := ih (j + 1) acc
        (fun m h1 h2 => absurd h2 (by omega))
      refine ⟨by rw [hstep]; exact ihskip, ?_, ?_⟩
      · intro m h1 h2
        exact absurd h2 (by omega)
      · intro k hk
        rw [hstep]
        refine ihframe k (fun hc => hk ?_)
        have hmem : k ∈ List.drop 1 (colNames.drop j) := by
          rw [List.drop_drop]
          simpa [Nat.add_comm] using hc
        exact List.mem_of_mem_drop hmem

theorem collectRows_decode (colNames : List String) (hne : colNames ≠ []) :
    ∀ body : List (List (Option String)),
      collectRows colNames body = some (body.filterMap (decodeRow colNames)) := by
  intro body
  induction body with
  | nil => rfl
  | cons r rest ih =>
    have hlen : ¬ colNames.length < 1 := by
      have := List.length_pos.mpr hne
      omega
    simp only [collectRows, if_neg hlen]
    rcases hd : decodeRow colNames r with _ | row <;>
      simp only [List.filterMap_cons, hd, ih]
    rfl

/-- **C7.** `sendQuery` treats the first returned row as the header
(`collectRows` starting from an empty `colNames`); every subsequent
row is decoded positionally by header label; and any row containing at
least one absent (`nil`) cell within the header width is dropped from
the returned rows without error — the result is the `filterMap` of the
body, so a dropped row contributes nothing downstream. -/
theorem sendQuery_header_decode (hdr : List (Option String))
    (body : List (List (Option String))) (colNames : List String)
    (hh : hdr.mapM id = some colNames) (hne : colNames ≠ []) :
    collectRows [] (hdr :: body) = some (body.filterMap (decodeRow colNames))
    ∧ (∀ (cells : List (Option String)) (m : Nat) (h1 : m < cells.length),
        m < colNames.length → cells.get ⟨m, h1⟩ = none →
        decodeRow colNames cells = none)
    ∧ (colNames.Nodup →
        ∀ cells : List (Option String), cells ≠ [] →
        (∀ m (h1 : m < cells.length), m < colNames.length →
          (cells.get ⟨m, h1⟩).isSome) →
        ∃ r, decodeRow colNames cells = some r ∧
          ∀ m (h1 : m < cells.length) (h2 : m < colNames.length),
            rowGet r (colNames.get ⟨m, h2⟩) = (cells.get ⟨m, h1⟩).getD "") := by
  refine ⟨?_, ?_, ?_⟩
  · simp only [collectRows, if_pos (by simp : ([] : List String).length < 1), hh]
    exact collectRows_decode colNames hne body
  · intro cells m h1 h2 hnone
    unfold decodeRow
    have hskip := buildRowAux_skip colNames cells 0 [] ⟨m, h1, by omega, hnone⟩
    rw [if_neg (by simp [hskip])]
  · intro hnd cells hcne hsome
    obtain ⟨hskip, hget, _⟩ := buildRowAux_props colNames hnd cells 0 []
      (fun m h1 h2 => hsome m h1 (by omega))
    have hne2 : (buildRowAux colNames 0 cells []).1 ≠ [] := by
      rcases cells with _ | ⟨c, rest⟩
      · exact absurd rfl hcne
      · have h0 : (0 : Nat) < colNames.length := List.length_pos.mpr hne
        have hc : c.isSome := hsome 0 (Nat.succ_pos _) h0
        obtain ⟨v, hv⟩ := Option.isSome_iff_exists.mp hc
        subst hv
        have hstep : buildRowAux colNames 0 (some v :: rest) []
            = buildRowAux colNames 1 rest (rowSet [] (colNames.get ⟨0, h0⟩) v) := by
          simp only [buildRowAux]
          rw [dif_pos h0]
        rw [hstep]
        rcases buildRowAux_ne colNames rest 1 (rowSet [] (colNames.get ⟨0, h0⟩) v)
            with h | h
        · rw [h]
          simp [rowSet]
        · exact h
    refine ⟨(buildRowAux colNames 0 cells []).1, ?_, ?_⟩
    · unfold decodeRow
      rw [if_pos ⟨hne2, hskip⟩]
    · intro m h1 h2
      have hh2 : (0 : Nat) + m < colNames.length := by omega
      have := hget m h1 hh2
      simpa [Nat.zero_add] using this

/-- Concrete input exercising `sendQuery_header_decode`: a header of
two labels, one complete body row and one row with a nil cell; the
result is the filterMap of the body under the decoded header. -/
theorem sendQuery_header_decode_witness :
    collectRows [] [[some "service", some "cost"],
        [some "EC2", some "1.5"], [some "S3", none]]
      = some ([[some "EC2", some "1.5"], [some "S3", none]].filterMap
          (decodeRow ["service", "cost"])) :=
  (sendQuery_header_decode [some "service", some "cost"]
    [[some "EC2", some "1.5"], [some "S3", none]]
    ["service", "cost"] rfl (by decide)).1

/-- `sort.Strings(keys)` from `printResults`: Go sorts byte-wise
lexicographically, which on UTF-8 agrees with `String`'s
codepoint-lexicographic order. -/
def sortStrings (l : List String) : List String :=
  l.mergeSort (fun a b => decide (a ≤ b))

/-- The Go map read `r.tagCosts[k]`. -/
def lookupCost (tagCosts : List (String × ℚ)) (k : String) : ℚ :=
  ((tagCosts.find? (fun p => p.1 == k)).map Prod.snd).getD 0

/-- Go `math.Round`: round half away from zero (for negative `x`,
`Round(x) = -Round(-x)`).  `Rat.floor` is used for computability;
`goRound_halfaway` below restates it with `⌊·⌋`/`⌈·⌉`. -/
def goRound (x : ℚ) : ℤ :=
  if 0 ≤ x then (x + 1/2).floor else -((-x + 1/2).floor)

theorem rat_floor_eq_int_floor (q : ℚ) : q.floor = ⌊q⌋ := by
  rw [Rat.floor_def', Rat.floor_def]

theorem goRound_halfaway (x : ℚ) :
    goRound x = if 0 ≤ x then ⌊x + 1/2⌋ else ⌈x - 1/2⌉ := by
  unfold goRound
  by_cases h : 0 ≤ x
  · rw [if_pos h, if_pos h, rat_floor_eq_int_floor]
  · rw [if_neg h, if_neg h, rat_floor_eq_int_floor]
    rw [show -x + 1/2 = -(x - 1/2) by ring, Int.floor_neg]
    simp

/-- The rounding `math.Round(v / 0.01) * 0.01` applied by
`printResults` to every emitted amount. -/
def round2 (x : ℚ) : ℚ :=
  (goRound (x / (1/100)) : ℚ) * (1/100)

/-- The body lines of `printResults`: keys sorted, each amount
rounded, rows whose rounded amount does not strictly exceed `0.01`
elided. -/
def printedBody (tagCosts : List (String × ℚ)) : List (String × ℚ) :=
  (sortStrings (tagCosts.map Prod.fst)).filterMap (fun k =>
    if (1 : ℚ)/100 < round2 (lookupCost tagCosts k) then
      some (k, round2 (lookupCost tagCosts k))
    else none)

/-- The `Total:` trailer of `printResults`. -/
def printedTotal (total : ℚ) : ℚ := round2 total

theorem round2_eq (x : ℚ) (n : ℤ) (hx : 0 ≤ x)
    (h1 : (n : ℚ) ≤ x * 100 + 1/2) (h2 : x * 100 + 1/2 < n + 1) :
    round2 x = (n : ℚ) / 100 := by
  unfold round2 goRound
  rw [if_pos (div_nonneg hx (by norm_num))]
  rw [rat_floor_eq_int_floor]
  rw [show x / (1/100) = x * 100 by ring]
  have hfl : ⌊x * 100 + 1/2⌋ = n := by
    rw [Int.floor_eq_iff]
    exact ⟨h1, h2⟩
  rw [hfl]
  ring

theorem lookupCost_eq_of_mem (l : List (String × ℚ)) (k : String) (v : ℚ)
    (hnd : (l.map Prod.fst).Nodup) (h : (k, v) ∈ l) : lookupCost l k = v := by
  induction l with
  | nil => cases h
  | cons p rest ih =>
    obtain ⟨k', v'⟩ := p
    simp only [List.map_cons, List.nodup_cons] at hnd
    rcases List.mem_cons.mp h with h1 | h2
    · cases h1
      simp [lookupCost, List.find?]
    · by_cases hk : k' = k
      · subst hk
        exact absurd (List.mem_map_of_mem Prod.fst h2) hnd.1
      · have : lookupCost rest k = v := ih hnd.2 h2
        simp only [lookupCost, List.find?] at this ⊢
        have hbe : (k' == k) = false := by simp [hk]
        rw [hbe]
        exact this

theorem lookupCost_eq_of_not_mem (l : List (String × ℚ)) (k : String)
    (h : k ∉ l.map Prod.fst) : lookupCost l k = 0 := by
  have : l.find? (fun p => p.1 == k) = none := by
    apply List.find?_eq_none.mpr
    intro p hp hbe
    exact h (by
      have : p.1 = k := by simpa using hbe
      exact this ▸ List.mem_map_of_mem Prod.fst hp)
  simp [lookupCost, this]

theorem lookupCost_perm (l₁ l₂ : List (String × ℚ))
    (hnd : (l₁.map Prod.fst).Nodup) (hp : List.Perm l₁ l₂) (k : String) :
    lookupCost l₁ k = lookupCost l₂ k := by
  have hnd₂ : (l₂.map Prod.fst).Nodup := (hp.map Prod.fst).nodup_iff.mp hnd
  by_cases hk : k ∈ l₁.map Prod.fst
  · obtain ⟨p, hpmem, hpk⟩ := List.mem_map.mp hk
    obtain ⟨k', v⟩ := p
    cases hpk
    rw [lookupCost_eq_of_mem l₁ k' v hnd hpmem,
      lookupCost_eq_of_mem l₂ k' v hnd₂ (hp.mem_iff.mp hpmem)]
  · rw [lookupCost_eq_of_not_mem l₁ k hk,
      lookupCost_eq_of_not_mem l₂ k (fun hc => hk ((hp.map Prod.fst).mem_iff.mpr hc))]

theorem sortStrings_pairwise (l : List String) :
    (sortStrings l).Pairwise (· ≤ ·) := by
  have h : (sortStrings l).Pairwise (fun a b : String => decide (a ≤ b) = true) := by
    unfold sortStrings
    apply List.sorted_mergeSort
    · intro a b c h₁ h₂
      simp only [decide_eq_true_eq] at h₁ h₂ ⊢
      exact le_trans h₁ h₂
    · intro a b
      simp only [Bool.or_eq_true, decide_eq_true_eq]
      exact le_total a b
  exact h.imp (fun hab => of_decide_eq_true hab)

theorem map_fst_filterMap_sublist (g : String → Option (String × ℚ))
    (hg : ∀ k p, g k = some p → p.1 = k) (l : List String) :
    List.Sublist ((l.filterMap g).map Prod.fst) l := by
  induction l with
  | nil => simp
  | cons a t ih =>
    rcases hga : g a with _ | p
    · simp only [List.filterMap_cons, hga]
      exact ih.cons a
    · simp only [List.filterMap_cons, hga, List.map_cons]
      rw [hg a p hga]
      exact ih.cons₂ a

theorem sortStrings_perm_eq (l₁ l₂ : List String) (hp : List.Perm l₁ l₂) :
    sortStrings l₁ = sortStrings l₂ :=
  List.eq_of_perm_of_sorted
    (((List.mergeSort_perm l₁ _).trans hp).trans (List.mergeSort_perm l₂ _).symm)
    (sortStrings_pairwise l₁) (sortStrings_pairwise l₂)

/-- **C5.** `printResults` emits body rows with composite keys in
lexicographic (sorted string) order; each emitted row is an input key
with its amount rounded by `round(x*100)/100` (Go computes
`Round(x/0.01)*0.01`, the same rational), rows whose rounded amount
does not strictly exceed `0.01` being elided; and the emitted body is
invariant under any reordering of the aggregate map's entries, so the
output is deterministic even though Go map iteration order is not. -/
theorem printResults_body_spec (tagCosts : List (String × ℚ))
    (hnd : (tagCosts.map Prod.fst).Nodup) :
    ((printedBody tagCosts).map Prod.fst).Pairwise (· ≤ ·)
    ∧ (∀ k v, (k, v) ∈ printedBody tagCosts ↔
        k ∈ tagCosts.map Prod.fst ∧ v = round2 (lookupCost tagCosts k)
          ∧ (1 : ℚ)/100 < v)
    ∧ (∀ x : ℚ, round2 x = (goRound (x * 100) : ℚ) / 100)
    ∧ (∀ l₂, List.Perm tagCosts l₂ → printedBody tagCosts = printedBody l₂) := by
  refine ⟨?_, ?_, ?_, ?_⟩
  · have hsub := map_fst_filterMap_sublist
      (fun k => if (1 : ℚ)/100 < round2 (lookupCost tagCosts k) then
          some (k, round2 (lookupCost tagCosts k)) else none)
      (fun k p hkp => by
        have hkp' : (if (1 : ℚ)/100 < round2 (lookupCost tagCosts k) then
            some (k, round2 (lookupCost tagCosts k)) else none) = some p := hkp
        by_cases hc : (1 : ℚ)/100 < round2 (lookupCost tagCosts k)
        · rw [if_pos hc] at hkp'
          cases hkp'
          rfl
        · rw [if_neg hc] at hkp'
          cases hkp')
      (sortStrings (tagCosts.map Prod.fst))
    exact (sortStrings_pairwise (tagCosts.map Prod.fst)).sublist hsub
  · intro k v
    unfold printedBody
    rw [List.mem_filterMap]
    constructor
    · rintro ⟨a, ha, hfa⟩
      by_cases hc : (1 : ℚ)/100 < round2 (lookupCost tagCosts a)
      · rw [if_pos hc] at hfa
        obtain ⟨h1, h2⟩ := Prod.mk.inj (Option.some.inj hfa)
        subst h1
        refine ⟨?_, h2.symm, h2 ▸ hc⟩
        exact (List.mergeSort_perm (tagCosts.map Prod.fst) _).mem_iff.mp ha
      · rw [if_neg hc] at hfa
        cases hfa
    · rintro ⟨hk, rfl, hlt⟩
      refine ⟨k, ?_, ?_⟩
      · exact (List.mergeSort_perm (tagCosts.map Prod.fst) _).mem_iff.mpr hk
      · rw [if_pos hlt]
  · intro x
    unfold round2
    rw [show x / (1/100) = x * 100 by ring]
    ring
  · intro l₂ hp
    have hkeys : sortStrings (tagCosts.map Prod.fst) = sortStrings (l₂.map Prod.fst) :=
      sortStrings_perm_eq _ _ (hp.map Prod.fst)
    unfold printedBody
    rw [hkeys]
    congr 1
    funext k
    rw [lookupCost_perm tagCosts l₂ hnd hp k]

/-- Concrete input exercising `printResults_body_spec`: the emitted
keys for a two-entry aggregate map are in sorted order. -/
theorem printResults_body_spec_witness :
    ((printedBody [("B", (5 : ℚ)), ("A", 3)]).map Prod.fst).Pairwise (· ≤ ·) :=
  (printResults_body_spec [("B", (5 : ℚ)), ("A", 3)] (by decide)).1

theorem processResults_foldl_total (parse : String → Option ℚ) (c : Config) :
    ∀ (rows : List Row) (r₀ : Results),
      (rows.foldl
        (fun r row =>
          match parse (rowGet row "cost") with
          | none => r
          | some f => { tagCosts := upsert r.tagCosts (compositeKey row c) f,
                        total := r.total + f }) r₀).total
      = r₀.total + (rows.filterMap (fun row => parse (rowGet row "cost"))).sum := by
  intro rows
  induction rows with
  | nil =>
    intro r₀
    simp
  | cons a t ih =>
    intro r₀
    simp only [List.foldl_cons, List.filterMap_cons]
    rcases hp : parse (rowGet a "cost") with _ | f <;> simp only [hp]
    · rw [ih]
    · rw [ih]
      simp only [List.sum_cons]
      ring

/-- **C10.** The `Total:` trailer printed by `printResults` is the
rounded sum of the costs of every successfully parsed input row —
including rows of groups whose body line was elided for not exceeding
the `0.01` threshold — and consequently for some inputs the sum of the
body amounts is strictly less than the printed total. -/
theorem printResults_total_includes_elided :
    (∀ (parse : String → Option ℚ) (rows : List Row) (c : Config),
      printedTotal (processResults parse rows c).total
        = round2 ((rows.filterMap (fun row => parse (rowGet row "cost"))).sum))
    ∧ (∃ (parse : String → Option ℚ) (rows : List Row) (c : Config),
        ((printedBody (processResults parse rows c).tagCosts).map Prod.snd).sum
          < printedTotal (processResults parse rows c).total) := by
  constructor
  · intro parse rows c
    unfold printedTotal processResults
    rw [processResults_foldl_total]
    norm_num
  · refine ⟨fun s => if s == "five" then some 5
        else if s == "tiny" then some (1/200) else none,
      [[("service", "A"), ("cost", "five")], [("service", "B"), ("cost", "tiny")]],
      ⟨[], []⟩, ?_⟩
    have hP : processResults
        (fun s => if s == "five" then some 5
          else if s == "tiny" then some (1/200) else none)
        [[("service", "A"), ("cost", "five")],
         [("service", "B"), ("cost", "tiny")]] ⟨[], []⟩
        = { tagCosts := [("A", (5:ℚ)), ("B", (1/200 : ℚ))], total := 0 + 5 + 1/200 } := rfl
    have hsort : sortStrings ["A", "B"] = ["A", "B"] :=
      List.mergeSort_of_sorted
        (List.pairwise_cons.mpr
          ⟨fun b hb => by
            cases List.mem_singleton.mp hb
            exact decide_eq_true (String.le_iff_toList_le.mpr (by decide)),
           List.pairwise_singleton _ _⟩)
    have hlA : lookupCost [("A", (5:ℚ)), ("B", (1/200 : ℚ))] "A" = 5 := rfl
    have hlB : lookupCost [("A", (5:ℚ)), ("B", (1/200 : ℚ))] "B" = 1/200 := rfl
    have hr5 : round2 (5 : ℚ) = 5 := by
      rw [show (5:ℚ) = ((500:ℤ):ℚ)/100 by norm_num]
      rw [round2_eq (((500:ℤ):ℚ)/100) 500 (by norm_num) (by norm_num) (by norm_num)]
    have hrB : round2 ((1:ℚ)/200) = 1/100 := by
      rw [round2_eq ((1:ℚ)/200) 1 (by norm_num) (by norm_num) (by norm_num)]
      norm_num
    have hrT : round2 ((0:ℚ) + 5 + 1/200) = 501/100 := by
      rw [round2_eq ((0:ℚ) + 5 + 1/200) 501 (by norm_num) (by norm_num) (by norm_num)]
      norm_num
    have hbody : printedBody [("A", (5:ℚ)), ("B", (1/200 : ℚ))] = [("A", (5:ℚ))] := by
      unfold printedBody
      rw [show ([("A", (5:ℚ)), ("B", (1/200 : ℚ))].map Prod.fst) = ["A", "B"] from rfl]
      rw [hsort, List.filterMap_cons, List.filterMap_cons, List.filterMap_nil]
      rw [hlA, hlB, hr5, hrB]
      rw [if_pos (by norm_num), if_neg (by norm_num)]
    rw [hP]
    show ((printedBody [("A", (5:ℚ)), ("B", (1/200 : ℚ))]).map Prod.snd).sum
        < printedTotal ((0:ℚ) + 5 + 1/200)
    rw [hbody]
    show (5:ℚ) + 0 < printedTotal ((0:ℚ) + 5 + 1/200)
    unfold printedTotal
    rw [hrT]
    norm_num

end CostCli

namespace CurConvert

/-- One entry of the manifest's `columns` array. -/
structure ManifestColumn where
  category : String
  name : String

/-- One emitted column of the Parquet schema (the Go code renders it
as `"name=<n>, type=<t>, encoding=PLAIN_DICTIONARY"`). -/
structure SchemaEntry where
  name : String
  colType : String

/-- The character substitution of `ParseCur`: keep `[a-z0-9/]`,
replace anything else with `_`. -/
def canonChar (r : Char) : Char :=
  if 'a' ≤ r ∧ r ≤ 'z' then r
  else if '0' ≤ r ∧ r ≤ '9' then r
  else if r = '/' then r
  else '_'

/-- The canonicalization of `ParseCur`: `strings.ToLower` (modelled
per character by `Char.toLower`; CUR manifest names are ASCII) then
`strings.Map` with `canonChar`, both rune-wise maps over the string's
characters. -/
def canonicalize (s : String) : String :=
  String.mk ((s.data.map Char.toLower).map canonChar)

/-- The canonical name of one manifest column
(`t["category"] + "/" + t["name"]`, canonicalized). -/
def canonName (mc : ManifestColumn) : String :=
  canonicalize (mc.category ++ "/" ++ mc.name)

/-- The fields of the `CurConvert` struct the claims under study
read. -/
structure CurConvertState where
  tempDir : String
  concurrency : Int
  fileConcurrency : Int
  CurColumnTypes : List (String × String)

/-- `NewCurConvert`: the defaults and the fixed thirteen-entry type
override table. -/
def newCurConvert : CurConvertState :=
  { tempDir := "/tmp"
    concurrency := 10
    fileConcurrency := 30
    CurColumnTypes :=
      [("lineitem/usageamount", "DOUBLE"),
       ("lineitem/normalizationfactor", "DOUBLE"),
       ("lineitem/normalizedusageamount", "DOUBLE"),
       ("lineitem/unblendedrate", "DOUBLE"),
       ("lineitem/unblendedcost", "DOUBLE"),
       ("lineitem/blendedrate", "DOUBLE"),
       ("lineitem/blendedcost", "DOUBLE"),
       ("pricing/publicondemandcost", "DOUBLE"),
       ("pricing/publicondemandrate", "DOUBLE"),
       ("reservation/normalizedunitsperreservation", "DOUBLE"),
       ("reservation/totalreservednormalizedunits", "DOUBLE"),
       ("reservation/totalreservedunits", "DOUBLE"),
       ("reservation/unitsperreservation", "DOUBLE")] }

/-- `SetFileConcurrency`: arguments outside 1..1000 are rejected with
an error and the configured concurrency is left unchanged. -/
def SetFileConcurrency (c : CurConvertState) (n : Int) : CurConvertState × Option String :=
  if n < 1 ∨ n > 1000 then (c, some "File Concurrency must be between 1-1000")
  else ({ c with fileConcurrency := n }, none)

/-- The column loop of `ParseCur` over the manifest columns, carrying
the running index, the `seen` set, and returning the skip set
(`skipCols`) and the emitted schema (`CurColumns`), with the type
looked up in the override table (default `UTF8`). -/
def parseCurAux (types : List (String × String)) :
    Nat → List String → List ManifestColumn → List Nat × List SchemaEntry
  | _, _, [] => ([], [])
  | i, seen, mc :: rest =>
    let n := canonName mc
    if seen.contains n then
      let p := parseCurAux types (i + 1) seen rest
      (i :: p.1, p.2)
    else
      let p := parseCurAux types (i + 1) (n :: seen) rest
      (p.1, ⟨n, (List.lookup n types).getD "UTF8"⟩ :: p.2)

/-- The schema-building part of `ParseCur`: process the manifest
columns from an empty `seen` set. -/
def parseCur (c : CurConvertState) (cols : List ManifestColumn) :
    List Nat × List SchemaEntry :=
  parseCurAux c.CurColumnTypes 0 [] cols

theorem parseCurAux_cons_pos (types : List (String × String)) (i : Nat)
    (seen : List String) (mc : ManifestColumn) (rest : List ManifestColumn)
    (h : canonName mc ∈ seen) :
    parseCurAux types i seen (mc :: rest)
      = (i :: (parseCurAux types (i + 1) seen rest).1,
         (parseCurAux types (i + 1) seen rest).2) := by
  simp [parseCurAux, h]

theorem parseCurAux_cons_neg (types : List (String × String)) (i : Nat)
    (seen : List String) (mc : ManifestColumn) (rest : List ManifestColumn)
    (h : canonName mc ∉ seen) :
    parseCurAux types i seen (mc :: rest)
      = ((parseCurAux types (i + 1) (canonName mc :: seen) rest).1,
         ⟨canonName mc, (List.lookup (canonName mc) types).getD "UTF8"⟩ ::
           (parseCurAux types (i + 1) (canonName mc :: seen) rest).2) := by
  simp [parseCurAux, h]

theorem parseCurAux_skips_ge (types : List (String × String)) :
    ∀ (l : List ManifestColumn) (i : Nat) (seen : List String),
      ∀ x ∈ (parseCurAux types i seen l).1, i ≤ x := by
  intro l
  induction l with
  | nil =>
    intro i seen x hx
    cases hx
  | cons mc rest ih =>
    intro i seen x hx
    by_cases hdup : canonName mc ∈ seen
    · rw [parseCurAux_cons_pos types i seen mc rest hdup] at hx
      rcases List.mem_cons.mp hx with h | h
      · omega
      · have := ih (i + 1) seen x h
        omega
    · rw [parseCurAux_cons_neg types i seen mc rest hdup] at hx
      have := ih (i + 1) (canonName mc :: seen) x hx
      omega

theorem parseCurAux_skip_iff (types : List (String × String)) :
    ∀ (pre : List ManifestColumn) (x : ManifestColumn) (post : List ManifestColumn)
      (i : Nat) (seen : List String),
      ((i + pre.length) ∈ (parseCurAux types i seen (pre ++ x :: post)).1
        ↔ (canonName x ∈ seen ∨ canonName x ∈ pre.map canonName)) := by
  intro pre
  induction pre with
  | nil =>
    intro x post i seen
    simp only [List.nil_append, List.length_nil, Nat.add_zero, List.map_nil,
      List.not_mem_nil, or_false]
    by_cases hdup : canonName x ∈ seen
    · rw [parseCurAux_cons_pos types i seen x post hdup]
      simp [hdup]
    · rw [parseCurAux_cons_neg types i seen x post hdup]
      constructor
      · intro hx
        have := parseCurAux_skips_ge types post (i + 1) (canonName x :: seen) i hx
        omega
      · intro hc
        exact absurd hc hdup
  | cons q pre' ih =>
    intro x post i seen
    simp only [List.cons_append, List.length_cons, List.map_cons, List.mem_cons]
    have hidx : i + (pre'.length + 1) = (i + 1) + pre'.length := by omega
    by_cases hdup : canonName q ∈ seen
    · rw [parseCurAux_cons_pos types i seen q (pre' ++ x :: post) hdup]
      rw [List.mem_cons, hidx, ih x post (i + 1) seen]
      have hne : ¬ ((i + 1) + pre'.length = i) := by omega
      simp only [hne, false_or]
      constructor
      · rintro (h | h)
        · exact Or.inl h
        · exact Or.inr (Or.inr h)
      · rintro (h | h | h)
        · exact Or.inl h
        · rw [← h] at hdup
          exact Or.inl hdup
        · exact Or.inr h
    · rw [parseCurAux_cons_neg types i seen q (pre' ++ x :: post) hdup]
      rw [hidx, ih x post (i + 1) (canonName q :: seen)]
      simp only [List.mem_cons]
      constructor
      · rintro ((h | h) | h)
        · exact Or.inr (Or.inl h)
        · exact Or.inl h
        · exact Or.inr (Or.inr h)
      · rintro (h | h | h)
        · exact Or.inl (Or.inr h)
        · exact Or.inl (Or.inl h)
        · exact Or.inr h

theorem parseCurAux_names_mem (types : List (String × String)) :
    ∀ (l : List ManifestColumn) (i : Nat) (seen : List String) (n : String),
      (n ∈ (parseCurAux types i seen l).2.map SchemaEntry.name
        ↔ (n ∉ seen ∧ n ∈ l.map canonName)) := by
  intro l
  induction l with
  | nil =>
    intro i seen n
    simp [parseCurAux]
  | cons mc rest ih =>
    intro i seen n
    simp only [List.map_cons, List.mem_cons]
    by_cases hdup : canonName mc ∈ seen
    · rw [parseCurAux_cons_pos types i seen mc rest hdup]
      rw [ih (i + 1) seen n]
      constructor
      · rintro ⟨h1, h2⟩
        exact ⟨h1, Or.inr h2⟩
      · rintro ⟨h1, h2 | h2⟩
        · subst h2
          exact absurd hdup h1
        · exact ⟨h1, h2⟩
    · rw [parseCurAux_cons_neg types i seen mc rest hdup]
      simp only [List.map_cons, List.mem_cons]
      rw [ih (i + 1) (canonName mc :: seen) n]
      simp only [List.mem_cons, not_or]
      constructor
      · rintro (h | ⟨⟨hne, hns⟩, hmem⟩)
        · subst h
          exact ⟨hdup, Or.inl rfl⟩
        · exact ⟨hns, Or.inr hmem⟩
      · rintro ⟨hns, h | h⟩
        · exact Or.inl h
        · by_cases hq : n = canonName mc
          · exact Or.inl hq
          · exact Or.inr ⟨⟨hq, hns⟩, h⟩

theorem parseCurAux_names_nodup (types : List (String × String)) :
    ∀ (l : List ManifestColumn) (i : Nat) (seen : List String),
      ((parseCurAux types i seen l).2.map SchemaEntry.name).Nodup := by
  intro l
  induction l with
  | nil =>
    intro i seen
    simp [parseCurAux]
  | cons mc rest ih =>
    intro i seen
    by_cases hdup : canonName mc ∈ seen
    · rw [parseCurAux_cons_pos types i seen mc rest hdup]
      exact ih (i + 1) seen
    · rw [parseCurAux_cons_neg types i seen mc rest hdup]
      simp only [List.map_cons]
      refine List.nodup_cons.mpr ⟨?_, ih (i + 1) (canonName mc :: seen)⟩
      intro hc
      have := (parseCurAux_names_mem types rest (i + 1)
        (canonName mc :: seen) (canonName mc)).mp hc
      exact this.1 (List.mem_cons_self _ _)

theorem parseCurAux_types_spec (types : List (String × String)) :
    ∀ (l : List ManifestColumn) (i : Nat) (seen : List String),
      ∀ e ∈ (parseCurAux types i seen l).2,
        e.colType = (List.lookup e.name types).getD "UTF8" := by
  intro l
  induction l with
  | nil =>
    intro i seen e he
    cases he
  | cons mc rest ih =>
    intro i seen e he
    by_cases hdup : canonName mc ∈ seen
    · rw [parseCurAux_cons_pos types i seen mc rest hdup] at he
      exact ih (i + 1) seen e he
    · rw [parseCurAux_cons_neg types i seen mc rest hdup] at he
      rcases List.mem_cons.mp he with h | h
      · subst h
        rfl
      · exact ih (i + 1) (canonName mc :: seen) e h

theorem lookup_mem_of_eq_some {β : Type} (l : List (String × β)) (a : String) (b : β)
    (h : List.lookup a l = some b) : (a, b) ∈ l := by
  obtain ⟨l₁, l₂, rfl, -⟩ := List.lookup_eq_some_iff.mp h
  exact List.mem_append.mpr (Or.inr (List.mem_cons_self _ _))

theorem lookup_eq_none_of_not_mem {β : Type} (l : List (String × β)) (a : String)
    (h : a ∉ l.map Prod.fst) : List.lookup a l = none := by
  apply List.lookup_eq_none_iff.mpr
  intro p hp
  simp only [bne_iff_ne, ne_eq]
  intro hq
  exact h (hq ▸ List.mem_map_of_mem Prod.fst hp)

theorem lookup_isSome_of_mem {β : Type} (l : List (String × β)) (a : String)
    (h : a ∈ l.map Prod.fst) : ∃ b, List.lookup a l = some b := by
  have hs : (List.lookup a l).isSome := by
    apply List.lookup_isSome_iff.mpr
    obtain ⟨p, hp, he⟩ := List.mem_map.mp h
    exact ⟨p, hp, by simp [he]⟩
  exact Option.isSome_iff_exists.mp hs

/-- **C3.** `ParseCur` canonicalizes each `category/name` column name
by lowercasing and replacing every character outside `[a-z0-9/]` with
`_`; a position whose canonical name already occurred earlier goes
into the skip set and is not appended to the emitted schema (the first
occurrence is kept), so canonical names are unique within the emitted
schema, which contains exactly the canonical names of the manifest
columns. -/
theorem parseCur_canonicalization_dedup (cols : List ManifestColumn) :
    (∀ ch : Char,
      ((('a' ≤ ch ∧ ch ≤ 'z') ∨ ('0' ≤ ch ∧ ch ≤ '9') ∨ ch = '/') → canonChar ch = ch)
      ∧ (¬(('a' ≤ ch ∧ ch ≤ 'z') ∨ ('0' ≤ ch ∧ ch ≤ '9') ∨ ch = '/') →
          canonChar ch = '_'))
    ∧ (∀ mc : ManifestColumn,
        (canonName mc).data
          = (mc.category ++ "/" ++ mc.name).data.map (fun c => canonChar c.toLower))
    ∧ (∀ (pre : List ManifestColumn) (x : ManifestColumn) (post : List ManifestColumn),
        cols = pre ++ x :: post →
        (pre.length ∈ (parseCur newCurConvert cols).1
          ↔ canonName x ∈ pre.map canonName))
    ∧ ((parseCur newCurConvert cols).2.map SchemaEntry.name).Nodup
    ∧ (∀ n, n ∈ (parseCur newCurConvert cols).2.map SchemaEntry.name
        ↔ n ∈ cols.map canonName) := by
  refine ⟨?_, ?_, ?_, ?_, ?_⟩
  · intro ch
    constructor
    · intro h
      unfold canonChar
      split_ifs with h1 h2 h3
      · rfl
      · rfl
      · rfl
      · exact absurd h (by tauto)
    · intro h
      unfold canonChar
      split_ifs with h1 h2 h3
      · exact absurd (Or.inl h1) h
      · exact absurd (Or.inr (Or.inl h2)) h
      · exact absurd (Or.inr (Or.inr h3)) h
      · rfl
  · intro mc
    simp [canonName, canonicalize, List.map_map]
    rfl
  · intro pre x post hsplit
    subst hsplit
    have := parseCurAux_skip_iff newCurConvert.CurColumnTypes pre x post 0 []
    simp only [Nat.zero_add] at this
    unfold parseCur
    rw [this]
    simp
  · exact parseCurAux_names_nodup newCurConvert.CurColumnTypes cols 0 []
  · intro n
    unfold parseCur
    rw [parseCurAux_names_mem newCurConvert.CurColumnTypes cols 0 [] n]
    simp

/-- **C4.** For every non-skipped manifest column, `ParseCur` assigns
physical type `DOUBLE` exactly when the column's canonical name is one
of the thirteen entries of the fixed override table initialized in
`NewCurConvert`, and `UTF8` in every other case. -/
theorem parseCur_type_override (cols : List ManifestColumn) :
    newCurConvert.CurColumnTypes.length = 13
    ∧ (∀ p ∈ newCurConvert.CurColumnTypes, p.2 = "DOUBLE")
    ∧ (∀ e ∈ (parseCur newCurConvert cols).2,
        (e.name ∈ newCurConvert.CurColumnTypes.map Prod.fst → e.colType = "DOUBLE")
        ∧ (e.name ∉ newCurConvert.CurColumnTypes.map Prod.fst →
            e.colType = "UTF8")) := by
  refine ⟨rfl, by decide, ?_⟩
  intro e he
  have htype := parseCurAux_types_spec newCurConvert.CurColumnTypes cols 0 [] e he
  constructor
  · intro hmem
    obtain ⟨b, hb⟩ := lookup_isSome_of_mem newCurConvert.CurColumnTypes e.name hmem
    have hpair := lookup_mem_of_eq_some newCurConvert.CurColumnTypes e.name b hb
    have hdouble : b = "DOUBLE" := by
      have : ∀ p ∈ newCurConvert.CurColumnTypes, p.2 = "DOUBLE" := by decide
      exact this (e.name, b) hpair
    rw [htype, hb, hdouble]
    rfl
  · intro hmem
    rw [htype, lookup_eq_none_of_not_mem newCurConvert.CurColumnTypes e.name hmem]
    rfl

/-- Concrete evaluation of `parseCur` on a manifest with a
usage-amount column (canonicalizing into the override table) and an
identity column (not in the table). -/
theorem parseCur_type_override_eval :
    ((parseCur newCurConvert
        [⟨"lineItem", "UsageAmount"⟩, ⟨"identity", "LineItemId"⟩]).2.map
      SchemaEntry.colType) = ["DOUBLE", "UTF8"] := by
  rfl

/-- **C9.** The shard file concurrency defaults to 30
(`NewCurConvert`), and `SetFileConcurrency` accepts exactly 1..1000:
outside that range it returns an error and leaves the configured
concurrency unchanged; inside it sets the concurrency to the argument
and returns no error. -/
theorem setFileConcurrency_bounds :
    newCurConvert.fileConcurrency = 30
    ∧ (∀ (c : CurConvertState) (n : Int), (n < 1 ∨ 1000 < n) →
        (SetFileConcurrency c n).1 = c ∧ (SetFileConcurrency c n).2.isSome = true)
    ∧ (∀ (c : CurConvertState) (n : Int), 1 ≤ n → n ≤ 1000 →
        (SetFileConcurrency c n).1.fileConcurrency = n
          ∧ (SetFileConcurrency c n).2 = none) := by
  refine ⟨rfl, ?_, ?_⟩
  · intro c n h
    unfold SetFileConcurrency
    rw [if_pos (by omega)]
    exact ⟨rfl, rfl⟩
  · intro c n h1 h2
    unfold SetFileConcurrency
    rw [if_neg (by omega)]
    exact ⟨rfl, rfl⟩

end CurConvert
